import Mathlib

/-! # istsh/cryptography: the bcrypt facade (`bcrypt.go`)

A shallow embedding of `package cryptography`:

* Go `byte` is `Fin 256` (arithmetic wraps modulo 256, as in Go);
* `[]byte` and `string` are both `List Byte` (a Go string is a byte sequence,
  and the conversions `[]byte(s)`, `string(b)` copy the bytes unchanged);
* Go `int` is `Int` (every value computed here fits 64 bits);
* `error` is `Option Error`, `none` being `nil`;
* a function returning `(T, error)` returns the pair, inside `Except Panic`
  so that an index out of range is a visible outcome of its own.
-/

namespace Cryptography

/-- A Go `byte`. -/
abbrev Byte := Fin 256

/-- The byte of an ASCII character literal such as `'$'`. -/
def byte (c : Char) : Byte := Fin.ofNat c.toNat

/-- The bytes of an ASCII string literal. -/
def bytes (s : String) : List Byte := s.toList.map byte

/-- Error values: the four package-level sentinels of `bcrypt.go`, the values
made by `errors.New`, the errors of `strconv`, and whatever the external bcrypt
primitive reports. -/
inductive Error where
  | ErrMismatchedHashAndPassword
  | ErrHashTooShort
  | ErrInvalidHash
  | ErrInvalidVersion
  /-- The value of `errors.New(text)`. -/
  | New (text : String)
  /-- The sentinel `strconv.ErrSyntax`. -/
  | StrconvErrSyntax
  /-- The sentinel `strconv.ErrRange`. -/
  | StrconvErrRange
  /-- The value `&strconv.NumError{Func, Num, Err}`. -/
  | NumError (Func : String) (Num : List Byte) (Err : Error)
  /-- An error of the external bcrypt package, identified by a code. -/
  | Primitive (code : Nat)
  deriving DecidableEq, Repr

/-- A Go run-time panic. -/
inductive Panic where
  /-- The panic `index out of range [i] with length n`. -/
  | indexOutOfRange (i n : Nat)
  /-- The panic `slice bounds out of range [lo:hi]`, the length being `n`. -/
  | sliceOutOfRange (lo hi n : Nat)
  deriving DecidableEq, Repr

/-- The index expression `b[i]`. -/
def index (b : List Byte) (i : Nat) : Except Panic Byte :=
  match b[i]? with
  | some x => .ok x
  | none => .error (.indexOutOfRange i b.length)

/-- The slice expression `b[lo:hi]`. Go bounds `hi` by the capacity; every
slice expression of `bcrypt.go` is reached only after a read or a length check
that already puts `hi` within the length, so the length is used here. -/
def slice (b : List Byte) (lo hi : Nat) : Except Panic (List Byte) :=
  if lo ≤ hi ∧ hi ≤ b.length then .ok ((b.drop lo).take (hi - lo))
  else .error (.sliceOutOfRange lo hi b.length)

-- the constants of bcrypt.go
def majorVersion : Byte := byte '2'
def minorVersion : Byte := byte 'a'
def maxSaltSize : Nat := 16
def maxCryptedHashSize : Nat := 23
def encodedSaltSize : Nat := 22
def encodedHashSize : Nat := 31
def minHashSize : Nat := 59

def MinCost : Int := 4
def MaxCost : Int := 31
def DefaultCost : Int := 10

/-! ## `strconv.Atoi`

The function of the Go standard library that `Cost` calls, for a 64-bit `int`. -/

namespace strconv

def fnAtoi : String := "Atoi"
def fnParseInt : String := "ParseInt"
def fnParseUint : String := "ParseUint"

def maxUint64 : Nat := 2 ^ 64 - 1

/-- The helper `syntaxError(fn, str)`: `&NumError{fn, str, ErrSyntax}`. -/
def syntaxError (fn : String) (str : List Byte) : Error :=
  .NumError fn str .StrconvErrSyntax

/-- The helper `rangeError(fn, str)`: `&NumError{fn, str, ErrRange}`. -/
def rangeError (fn : String) (str : List Byte) : Error :=
  .NumError fn str .StrconvErrRange

/-- The digit loop of the fast path of `Atoi`:
`for _, ch := range []byte(s) { ch -= '0'; if ch > 9 { return 0, syntaxError };
n = n*10 + int(ch) }`, the subtraction wrapping modulo 256. `none` is the
syntax-error exit, `some n` the value of `n` after the loop. -/
def atoiLoop : List Byte → Int → Option Int
  | [], n => some n
  | c :: cs, n =>
    let ch : Byte := c - byte '0'
    if ch > 9 then none else atoiLoop cs (n * 10 + (ch.val : Int))

/-- The helper `lower(c)`: `c | ('x' - 'X')`. -/
def lower (c : Byte) : Byte := Fin.ofNat (c.val ||| 0x20)

/-- The loop of `ParseUint(s, 10, 0)` over the bytes still to read, `n` being
the value so far (a `uint64`): the result pair of `ParseUint`. -/
def parseUintLoop (s0 : List Byte) : List Byte → Nat → Nat × Option Error
  | [], n => (n, none)
  | c :: cs, n =>
    if byte '0' ≤ c ∧ c ≤ byte '9' then
      let d : Byte := c - byte '0'
      if d ≥ 10 then (0, some (syntaxError fnParseUint s0))
      else if n ≥ maxUint64 / 10 + 1 then (maxUint64, some (rangeError fnParseUint s0))
      else
        let n10 := (n * 10) % 2 ^ 64
        let n1 := (n10 + d.val) % 2 ^ 64
        if n1 < n10 ∨ n1 > maxUint64 then (maxUint64, some (rangeError fnParseUint s0))
        else parseUintLoop s0 cs n1
    else if byte 'a' ≤ lower c ∧ lower c ≤ byte 'z' then
      -- d = lower(c) - 'a' + 10 is at least the base
      (0, some (syntaxError fnParseUint s0))
    else (0, some (syntaxError fnParseUint s0))

/-- The call `ParseUint(s, 10, 0)`. -/
def ParseUint (s : List Byte) : Nat × Option Error :=
  if s = [] then (0, some (syntaxError fnParseUint s))
  else parseUintLoop s s 0

/-- The call `ParseInt(s, 10, 0)`. -/
def ParseInt (s : List Byte) : Int × Option Error :=
  if s = [] then (0, some (syntaxError fnParseInt s))
  else
    let s0 := s
    let neg : Bool := s.head? = some (byte '-')
    let s := if s.head? = some (byte '+') ∨ s.head? = some (byte '-') then s.tail else s
    let (un, err) := ParseUint s
    match err with
    | some (.NumError _ _ .StrconvErrRange) | none =>
      let cutoff : Nat := 2 ^ 63
      if !neg ∧ un ≥ cutoff then ((cutoff : Int) - 1, some (rangeError fnParseInt s0))
      else if neg ∧ un > cutoff then (-(cutoff : Int), some (rangeError fnParseInt s0))
      else (if neg then -(un : Int) else (un : Int), none)
    | some (.NumError _ _ e) => (0, some (.NumError fnParseInt s0 e))
    | some e => (0, some e)

/-- The function `strconv.Atoi(s)`: the fast path for strings of 1 to 18 bytes,
the only one `Cost` reaches with its two-byte strings, and the slow path through
`ParseInt` for the others. -/
def Atoi (s : List Byte) : Int × Option Error :=
  let sLen := s.length
  if 0 < sLen ∧ sLen < 19 then
    -- fast path for small integers that fit the int type
    let s0 := s
    let signed : Bool := s.head? = some (byte '-') ∨ s.head? = some (byte '+')
    let s := if signed then s.tail else s
    if signed ∧ s.length < 1 then (0, some (syntaxError fnAtoi s0))
    else
      match atoiLoop s 0 with
      | none => (0, some (syntaxError fnAtoi s0))
      | some n => (if s0.head? = some (byte '-') then -n else n, none)
  else
    -- slow path for invalid, big, or underscored integers
    match ParseInt s with
    | (i64, some (.NumError _ num e)) => (i64, some (.NumError fnAtoi num e))
    | (i64, err) => (i64, err)

end strconv

/-! ## The external package `golang.org/x/crypto/bcrypt` -/

namespace bcrypt

/-- The constant `bcrypt.DefaultCost` of the external package. -/
def DefaultCost : Int := 10

end bcrypt

/-- The two functions of the external bcrypt package that the facade calls,
taken as parameters. `GenerateFromPassword(password, cost)` returns
`([]byte, error)` and `CompareHashAndPassword(hashedPassword, password)`
returns `error`. -/
structure BcryptPackage where
  GenerateFromPassword : List Byte → Int → List Byte × Option Error
  CompareHashAndPassword : List Byte → List Byte → Option Error

/-! ## The methods of `bcryptStruct` -/

/-- The method `func (*bcryptStruct) Version(hashedBytes []byte) ([]byte, error)`;
the `nil` slice is `[]`. The receiver, an empty struct, is dropped from all four
methods. -/
def Version (hashedBytes : List Byte) : Except Panic (List Byte × Option Error) := do
  if (← index hashedBytes 0) ≠ byte '$' then
    return ([], some .ErrInvalidHash)
  if (← index hashedBytes 1) > majorVersion then
    return ([], some .ErrInvalidVersion)
  if (← index hashedBytes 2) ≠ byte '$' then
    return (← slice hashedBytes 1 3, none)
  return (← slice hashedBytes 1 2, none)

/-- The method `func (*bcryptStruct) Cost(hashedBytes []byte) (int, error)`. -/
def Cost (hashedBytes : List Byte) : Except Panic (Int × Option Error) := do
  if hashedBytes.length < minHashSize then
    return (0, some .ErrHashTooShort)
  if (← index hashedBytes 0) ≠ byte '$' then
    return (0, some .ErrInvalidHash)
  if (← index hashedBytes 2) ≠ byte '$' then
    let (cost, err) := strconv.Atoi (← slice hashedBytes 4 6)
    if err ≠ none then
      return (-1, err)
    return (cost, none)
  let (cost, err) := strconv.Atoi (← slice hashedBytes 5 7)
  if err ≠ none then
    return (-1, err)
  return (cost, none)

/-- The method `func (*bcryptStruct) HashPassword(password string) (string, error)`,
the external package being the parameter `lib`. -/
def HashPassword (lib : BcryptPackage) (password : List Byte) : List Byte × Option Error :=
  if password = [] then
    ([], some (.New "password is empty"))
  else
    let (hashedPassword, err) := lib.GenerateFromPassword password bcrypt.DefaultCost
    if err ≠ none then ([], err)
    else (hashedPassword, none)

/-- The method
`func (*bcryptStruct) IsCorrectPassword(hashedPassword, password string) (bool, error)`,
the external package being the parameter `lib`. -/
def IsCorrectPassword (lib : BcryptPackage) (hashedPassword password : List Byte) :
    Bool × Option Error :=
  if hashedPassword = [] then
    (false, some (.New "hashedPassword is empty"))
  else if password = [] then
    (false, some (.New "password is empty"))
  else
    let err := lib.CompareHashAndPassword hashedPassword password
    if err ≠ none then (false, err)
    else (true, none)

deriving instance DecidableEq for Except

/-! ## Vocabulary of the statements -/

/-- An ASCII decimal digit, `'0'` to `'9'`. -/
def isDigit (c : Byte) : Prop := byte '0' ≤ c ∧ c ≤ byte '9'

instance (c : Byte) : Decidable (isDigit c) := by unfold isDigit; infer_instance

/-- The last step of both branches of `Cost`, applied to the pair `Atoi` returned:
`if err != nil { return -1, err }; return cost, nil`. -/
def costResult (r : Int × Option Error) : Except Panic (Int × Option Error) :=
  if r.2 ≠ none then .ok (-1, r.2) else .ok (r.1, none)

/-- Scenario S1 of the specification, a 60-byte hash of the two-char form. -/
def scenarioS1 : List Byte :=
  bytes "$2a$10$N9qo8uLOickgx2ZMRZoMyeIjZAgcfl7p92ldGxad68LJZdL17lhWy"

/-- Scenario S2 of the specification, a hash of the single-char form. -/
def scenarioS2 : List Byte :=
  bytes "$2$12$abcdefghijklmnopqrstuvwxyzABCDEFGHIJKLMNOPQRSTUVWXY"

/-- Scenario S1 with the cost field `-5`: 60 bytes, two-char form. -/
def negativeCostHash : List Byte :=
  bytes "$2a$-5$N9qo8uLOickgx2ZMRZoMyeIjZAgcfl7p92ldGxad68LJZdL17lhWy"

/-- Scenario S1 with the cost field `-9`. -/
def lowestCostHash : List Byte :=
  bytes "$2a$-9$N9qo8uLOickgx2ZMRZoMyeIjZAgcfl7p92ldGxad68LJZdL17lhWy"

/-- Scenario S1 with the cost field `99`. -/
def highestCostHash : List Byte :=
  bytes "$2a$99$N9qo8uLOickgx2ZMRZoMyeIjZAgcfl7p92ldGxad68LJZdL17lhWy"

/-- Scenario S1 with `'X'` in place of the `'$'` at bytes 3 and 6. -/
def unframedHash : List Byte :=
  bytes "$2aX10XN9qo8uLOickgx2ZMRZoMyeIjZAgcfl7p92ldGxad68LJZdL17lhWy"

/-- Scenario S2 followed by `"Z0"`: a well-formed single-char hash of 59 bytes,
`$2$12$`, 22 salt bytes and 31 digest bytes. -/
def singleCharHash : List Byte :=
  bytes "$2$12$abcdefghijklmnopqrstuvwxyzABCDEFGHIJKLMNOPQRSTUVWXYZ0"

/-- Scenario S1 with the major version `'3'`: `$3a$10$` and 53 bytes. -/
def version3Hash : List Byte :=
  bytes "$3a$10$N9qo8uLOickgx2ZMRZoMyeIjZAgcfl7p92ldGxad68LJZdL17lhWy"

/-- Scenario S1 with `'X'` in place of the leading `'$'`. -/
def noDollarHash : List Byte :=
  bytes "X2a$10$N9qo8uLOickgx2ZMRZoMyeIjZAgcfl7p92ldGxad68LJZdL17lhWy"

/-- The indices of `hashedBytes` that `Cost` reads, in order, along the path it
takes: none when the length check fails; byte 0; then byte 2; then the two bytes
of the slice handed to `Atoi`, `[4:6]` when byte 2 is not `'$'` and `[5:7]` when
it is. -/
def CostReads (hashedBytes : List Byte) : List Nat :=
  if hashedBytes.length < minHashSize then []
  else if hashedBytes[0]? ≠ some (byte '$') then [0]
  else if hashedBytes[2]? ≠ some (byte '$') then [0, 2, 4, 5]
  else [0, 2, 5, 6]

/-- A concrete instance of the external package, at which statements with
hypotheses are instantiated: the hash of a password is `$2a$10$` followed by the
first 53 bytes of the password padded with `'.'`. -/
def toyBcrypt : BcryptPackage where
  GenerateFromPassword p _ :=
    (bytes "$2a$10$" ++ (p ++ List.replicate 53 (byte '.')).take 53, none)
  CompareHashAndPassword m p :=
    if m = bytes "$2a$10$" ++ (p ++ List.replicate 53 (byte '.')).take 53 then none
    else some .ErrMismatchedHashAndPassword

/-! ## Lemmas on the embedding -/

theorem ok_bind {ε α β : Type} (a : α) (f : α → Except ε β) :
    (Except.ok a >>= f) = f a := rfl

theorem error_bind {ε α β : Type} (e : ε) (f : α → Except ε β) :
    ((Except.error e : Except ε α) >>= f) = Except.error e := rfl

theorem pure_eq_ok {ε α : Type} (a : α) : (pure a : Except ε α) = Except.ok a := rfl

theorem sub_zero_gt_nine (c : Byte) : (c - byte '0' > 9) ↔ ¬ isDigit c := by
  have h0 : (byte '0').val = 48 := rfl
  have h9 : (byte '9').val = 57 := rfl
  have hn : ((9 : Byte)).val = 9 := rfl
  unfold isDigit
  rw [gt_iff_lt, Fin.lt_def, Fin.le_def, Fin.le_def, Fin.sub_def, h0, h9, hn]
  simp only []
  have := c.isLt
  omega

theorem sub_zero_val (c : Byte) (hc : isDigit c) :
    ((c - byte '0' : Byte).val : Int) = (c.val : Int) - 48 := by
  have h0 : (byte '0').val = 48 := rfl
  have h9 : (byte '9').val = 57 := rfl
  unfold isDigit at hc
  rw [Fin.le_def, Fin.le_def, h0, h9] at hc
  rw [Fin.sub_def, h0]
  simp only []
  have := c.isLt
  omega

theorem isDigit_val (c : Byte) : isDigit c ↔ 48 ≤ c.val ∧ c.val ≤ 57 := by
  have h0 : (byte '0').val = 48 := rfl
  have h9 : (byte '9').val = 57 := rfl
  unfold isDigit
  rw [Fin.le_def, Fin.le_def, h0, h9]

theorem atoiLoop_one (y : Byte) (n : Int) :
    strconv.atoiLoop [y] n =
      if isDigit y then some (n * 10 + ((y.val : Int) - 48)) else none := by
  simp only [strconv.atoiLoop]
  by_cases hy : isDigit y
  · have := (sub_zero_gt_nine y).not.mpr (not_not.mpr hy)
    simp [hy, this, sub_zero_val y hy]
  · have := (sub_zero_gt_nine y).mpr hy
    simp [hy, this]

theorem atoiLoop_two (x y : Byte) :
    strconv.atoiLoop [x, y] 0 =
      if isDigit x ∧ isDigit y then some (10 * ((x.val : Int) - 48) + ((y.val : Int) - 48))
      else none := by
  rw [strconv.atoiLoop]
  by_cases hx : isDigit x
  · have := (sub_zero_gt_nine x).not.mpr (not_not.mpr hx)
    simp only [this, if_false, atoiLoop_one, hx, true_and, sub_zero_val x hx]
    by_cases hy : isDigit y
    · simp only [hy, if_true, Option.some.injEq]; ring
    · simp [hy]
  · have := (sub_zero_gt_nine x).mpr hx
    simp [hx, this]

/-- What `strconv.Atoi` returns on a two-byte string: a sign and a digit, or
two digits, and a syntax error on everything else. -/
theorem Atoi_two (x y : Byte) :
    strconv.Atoi [x, y] =
      if x = byte '-' then
        (if isDigit y then (-((y.val : Int) - 48), none)
         else (0, some (strconv.syntaxError strconv.fnAtoi [x, y])))
      else if x = byte '+' then
        (if isDigit y then ((y.val : Int) - 48, none)
         else (0, some (strconv.syntaxError strconv.fnAtoi [x, y])))
      else if isDigit x ∧ isDigit y then
        (10 * ((x.val : Int) - 48) + ((y.val : Int) - 48), none)
      else (0, some (strconv.syntaxError strconv.fnAtoi [x, y])) := by
  have hpm : byte '-' ≠ byte '+' := by decide
  by_cases hm : x = byte '-'
  · subst hm
    by_cases hy : isDigit y <;> simp [strconv.Atoi, atoiLoop_one, hy]
  · by_cases hp : x = byte '+'
    · subst hp
      by_cases hy : isDigit y <;> simp [strconv.Atoi, atoiLoop_one, hy, hm]
    · by_cases hxy : isDigit x ∧ isDigit y <;>
        simp [strconv.Atoi, atoiLoop_two, hxy, hm, hp]

theorem Version_cons3 (a b c : Byte) (rest : List Byte) :
    Version (a :: b :: c :: rest) =
      if a ≠ byte '$' then .ok ([], some .ErrInvalidHash)
      else if b > majorVersion then .ok ([], some .ErrInvalidVersion)
      else if c ≠ byte '$' then .ok ([b, c], none)
      else .ok ([b], none) := by
  simp only [Version, index, slice]
  split_ifs <;> simp_all [ok_bind, pure_eq_ok]

theorem exists_cons3 (h : List Byte) (hlen : 3 ≤ h.length) :
    ∃ a b c rest, h = a :: b :: c :: rest := by
  match h, hlen with
  | a :: b :: c :: rest, _ => exact ⟨a, b, c, rest, rfl⟩

theorem exists_cons7 (h : List Byte) (hlen : 7 ≤ h.length) :
    ∃ a0 a1 a2 a3 a4 a5 a6 rest, h = a0 :: a1 :: a2 :: a3 :: a4 :: a5 :: a6 :: rest := by
  match h, hlen with
  | a0 :: a1 :: a2 :: a3 :: a4 :: a5 :: a6 :: rest, _ =>
    exact ⟨a0, a1, a2, a3, a4, a5, a6, rest, rfl⟩

theorem Cost_short (b : List Byte) (hlen : b.length < 59) :
    Cost b = .ok (0, some .ErrHashTooShort) := by
  simp [Cost, minHashSize, hlen, pure_eq_ok]

/-- The result of `Cost` on an input that passes the length check. -/
theorem Cost_eq (h : List Byte) (hlen : 59 ≤ h.length) :
    Cost h =
      if h[0] ≠ byte '$' then .ok (0, some .ErrInvalidHash)
      else if h[2] ≠ byte '$' then costResult (strconv.Atoi [h[4], h[5]])
      else costResult (strconv.Atoi [h[5], h[6]]) := by
  obtain ⟨a0, a1, a2, a3, a4, a5, a6, rest, rfl⟩ := exists_cons7 h (by omega)
  have hl : ¬ (a0 :: a1 :: a2 :: a3 :: a4 :: a5 :: a6 :: rest).length < minHashSize := by
    simp only [minHashSize]; omega
  have h6 : 6 ≤ (a0 :: a1 :: a2 :: a3 :: a4 :: a5 :: a6 :: rest).length := by omega
  have h7 : 7 ≤ (a0 :: a1 :: a2 :: a3 :: a4 :: a5 :: a6 :: rest).length := by omega
  simp only [Cost, hl, if_false, index, slice, h6, h7, costResult, pure_eq_ok, ok_bind,
    List.getElem?_cons_zero, List.getElem?_cons_succ, List.getElem_cons_zero,
    List.getElem_cons_succ, List.drop_succ_cons, List.drop_zero, List.take_succ_cons,
    List.take_zero, and_true, Nat.reduceLeDiff, Nat.reduceSub, if_true]

theorem isDigit_ne_minus (c : Byte) (hc : isDigit c) : c ≠ byte '-' := by
  intro h
  have hv : (byte '-').val = 45 := rfl
  rw [isDigit_val, h, hv] at hc
  omega

theorem isDigit_ne_plus (c : Byte) (hc : isDigit c) : c ≠ byte '+' := by
  intro h
  have hv : (byte '+').val = 43 := rfl
  rw [isDigit_val, h, hv] at hc
  omega

theorem isDigit_ne_dollar (c : Byte) (hc : isDigit c) : c ≠ byte '$' := by
  intro h
  have hv : (byte '$').val = 36 := rfl
  rw [isDigit_val, h, hv] at hc
  omega

/-- The two outcomes of a branch of `Cost` that decodes the bytes `x`, `y`:
a cost between -9 and 99 with no error (negative only after a `'-'`, `x` not
being `'$'` and `y` being a digit), or -1 with the syntax error of `Atoi`. -/
theorem costResult_Atoi_two (x y : Byte) :
    (∃ v : Int, costResult (strconv.Atoi [x, y]) = .ok (v, none) ∧ -9 ≤ v ∧ v ≤ 99 ∧
      (v < 0 → x = byte '-') ∧ x ≠ byte '$' ∧ isDigit y) ∨
    costResult (strconv.Atoi [x, y]) =
      .ok (-1, some (strconv.syntaxError strconv.fnAtoi [x, y])) := by
  rw [Atoi_two]
  have hx := isDigit_val x
  have hy := isDigit_val y
  have hxl := x.isLt
  have hyl := y.isLt
  have hmd : byte '-' ≠ byte '$' := by decide
  have hpd : byte '+' ≠ byte '$' := by decide
  split_ifs with h1 h2 h3 h4 h5
  · have := hy.mp h2
    left
    exact ⟨-((y.val : Int) - 48), by simp [costResult], by omega, by omega,
      fun _ => h1, h1 ▸ hmd, h2⟩
  · right; simp [costResult]
  · have := hy.mp h4
    left
    exact ⟨(y.val : Int) - 48, by simp [costResult], by omega, by omega,
      fun hneg => absurd hneg (by omega), h3 ▸ hpd, h4⟩
  · right; simp [costResult]
  · have := hx.mp h5.1
    have := hy.mp h5.2
    left
    exact ⟨10 * ((x.val : Int) - 48) + ((y.val : Int) - 48), by simp [costResult],
      by omega, by omega, fun hneg => absurd hneg (by omega),
      isDigit_ne_dollar x h5.1, h5.2⟩
  · right; simp [costResult]

/-- Byte 3 is not read by `Cost`. -/
theorem Cost_set3 (h : List Byte) (x : Byte) : Cost (h.set 3 x) = Cost h := by
  by_cases hlen : h.length < 59
  · rw [Cost_short h hlen, Cost_short _ (by simpa using hlen)]
  · rw [Cost_eq h (by omega), Cost_eq _ (by simp; omega)]
    simp [List.getElem_set]

/-- What a successful `Cost` says of its input and of its value. -/
theorem Cost_success (h : List Byte) (v : Int) (hv : Cost h = .ok (v, none)) :
    59 ≤ h.length ∧ h[0]? = some (byte '$') ∧ h[5]? ≠ some (byte '$') ∧
    -9 ≤ v ∧ v ≤ 99 ∧
    (v < 0 → (h[2]? ≠ some (byte '$') ∧ h[4]? = some (byte '-')) ∨
      (h[2]? = some (byte '$') ∧ h[5]? = some (byte '-'))) := by
  by_cases hlen : h.length < 59
  · rw [Cost_short h hlen] at hv; simp at hv
  · have hl : 59 ≤ h.length := by omega
    rw [Cost_eq h hl] at hv
    have e0 : h[0]? = some h[0] := List.getElem?_eq_getElem (by omega)
    have e2 : h[2]? = some h[2] := List.getElem?_eq_getElem (by omega)
    have e4 : h[4]? = some h[4] := List.getElem?_eq_getElem (by omega)
    have e5 : h[5]? = some h[5] := List.getElem?_eq_getElem (by omega)
    rw [e0, e2, e4, e5]
    split_ifs at hv with h0 h2
    · simp at hv
    · rcases costResult_Atoi_two h[4] h[5] with ⟨w, hw, b1, b2, b3, b4, b5⟩ | hw
      · rw [hw] at hv
        simp only [Except.ok.injEq, Prod.mk.injEq, and_true] at hv
        subst hv
        refine ⟨hl, by simpa using h0, ?_, b1, b2, fun hneg => Or.inl ⟨by simpa using h2, ?_⟩⟩
        · simpa using isDigit_ne_dollar _ b5
        · simpa using b3 hneg
      · rw [hw] at hv; simp at hv
    · rcases costResult_Atoi_two h[5] h[6] with ⟨w, hw, b1, b2, b3, b4, b5⟩ | hw
      · rw [hw] at hv
        simp only [Except.ok.injEq, Prod.mk.injEq, and_true] at hv
        subst hv
        refine ⟨hl, by simpa using h0, ?_, b1, b2, fun hneg => Or.inr ⟨by simpa using h2, ?_⟩⟩
        · simpa using b4
        · simpa using b3 hneg
      · rw [hw] at hv; simp at hv

theorem costResult_ok (r : Int × Option Error) : ∃ v e, costResult r = .ok (v, e) := by
  unfold costResult
  split_ifs
  · exact ⟨_, _, rfl⟩
  · exact ⟨_, _, rfl⟩

/-- The indices read by `Cost` on an input that passes the length check. -/
theorem CostReads_eq (b : List Byte) (hlen : 59 ≤ b.length) :
    CostReads b =
      if b[0] ≠ byte '$' then [0]
      else if b[2] ≠ byte '$' then [0, 2, 4, 5]
      else [0, 2, 5, 6] := by
  have hl : ¬ b.length < minHashSize := by simp only [minHashSize]; omega
  have e0 : b[0]? = some b[0] := List.getElem?_eq_getElem (by omega)
  have e2 : b[2]? = some b[2] := List.getElem?_eq_getElem (by omega)
  simp only [CostReads, hl, if_false, e0, e2, ne_eq, Option.some.injEq]

theorem CostReads_short (b : List Byte) (hlen : b.length < 59) : CostReads b = [] := by
  simp [CostReads, minHashSize, hlen]

theorem CostReads_mem (b : List Byte) (i : Nat) (hi : i ∈ CostReads b) :
    59 ≤ b.length ∧ (i = 0 ∨ i = 2 ∨ i = 4 ∨ i = 5 ∨ i = 6) := by
  by_cases hs : b.length < 59
  · rw [CostReads_short b hs] at hi; simp at hi
  · have hl : 59 ≤ b.length := by omega
    rw [CostReads_eq b hl] at hi
    refine ⟨hl, ?_⟩
    split_ifs at hi <;> simp at hi <;> omega

/-- The result of `Cost` depends on the length of its input and on the bytes
at the indices it reads only. -/
theorem Cost_frame (b d : List Byte) (hlen : b.length = d.length)
    (hr : ∀ i ∈ CostReads b, b[i]? = d[i]?) : Cost b = Cost d := by
  by_cases hs : b.length < 59
  · rw [Cost_short b hs, Cost_short d (hlen ▸ hs)]
  · have hl : 59 ≤ b.length := by omega
    have hl2 : 59 ≤ d.length := by omega
    have g : ∀ i, (hi : i < 59) → i ∈ CostReads b → b[i] = d[i] := by
      intro i hi hm
      have h1 := hr i hm
      rw [List.getElem?_eq_getElem (by omega), List.getElem?_eq_getElem (by omega)] at h1
      exact Option.some.inj h1
    rw [Cost_eq b hl, Cost_eq d hl2]
    rw [CostReads_eq b hl] at g
    by_cases h0 : b[0] = byte '$'
    · by_cases h2 : b[2] = byte '$'
      · simp only [h0, h2, ne_eq, not_true_eq_false, if_false] at g
        rw [← g 0 (by omega) (by simp), ← g 2 (by omega) (by simp),
          ← g 5 (by omega) (by simp), ← g 6 (by omega) (by simp)]
        simp [h0, h2]
      · simp only [h0, h2, ne_eq, not_true_eq_false, not_false_eq_true, if_false,
          if_true] at g
        rw [← g 0 (by omega) (by simp), ← g 2 (by omega) (by simp),
          ← g 4 (by omega) (by simp), ← g 5 (by omega) (by simp)]
        simp [h0, h2]
    · simp only [h0, ne_eq, not_false_eq_true, if_true] at g
      rw [← g 0 (by omega) (by simp)]
      simp [h0]

theorem Version_nil : Version [] = .error (.indexOutOfRange 0 0) := rfl

theorem Version_one (a : Byte) :
    Version [a] =
      if a ≠ byte '$' then .ok ([], some .ErrInvalidHash)
      else .error (.indexOutOfRange 1 1) := by
  simp only [Version, index, List.getElem?_cons_zero, List.getElem?_cons_succ,
    List.getElem?_nil, ok_bind, error_bind, pure_eq_ok, List.length_singleton]

theorem Version_two (a b : Byte) :
    Version [a, b] =
      if a ≠ byte '$' then .ok ([], some .ErrInvalidHash)
      else if b > majorVersion then .ok ([], some .ErrInvalidVersion)
      else .error (.indexOutOfRange 2 2) := by
  simp only [Version, index, List.getElem?_cons_zero, List.getElem?_cons_succ,
    List.getElem?_nil, ok_bind, error_bind, pure_eq_ok, List.length_cons,
    List.length_nil]

/-! ## The claims -/

/-- C1: for every byte sequence `h` of at least 3 bytes whose byte 0 is `'$'`
and whose byte 1 is not greater than `'2'`, `Version h` returns no error and
exactly the bytes `[1..3)` when byte 2 is not `'$'`, exactly the bytes `[1..2)`
when byte 2 is `'$'`; every successful result of `Version`, on any input, has
length 1 or 2; `'0'`, `'1'` and `'2'` all qualify as byte 1; and the 60-byte hash
of scenario S1 gives `"2a"`. -/
theorem Version_ok :
    (∀ (h : List Byte) (hlen : 3 ≤ h.length), h[0] = byte '$' → h[1] ≤ byte '2' →
      (h[2] ≠ byte '$' → Version h = .ok ([h[1], h[2]], none)) ∧
      (h[2] = byte '$' → Version h = .ok ([h[1]], none))) ∧
    (∀ g v : List Byte, Version g = .ok (v, none) → v.length = 1 ∨ v.length = 2) ∧
    (byte '0' ≤ byte '2' ∧ byte '1' ≤ byte '2' ∧ byte '2' ≤ byte '2') ∧
    (scenarioS1.length = 60 ∧ Version scenarioS1 = .ok (bytes "2a", none)) := by
  refine ⟨?_, ?_, by decide, by decide⟩
  · intro h hlen h0 h1
    obtain ⟨a, b, c, rest, rfl⟩ := exists_cons3 h hlen
    simp only [List.getElem_cons_zero, List.getElem_cons_succ] at h0 h1 ⊢
    rw [Version_cons3]
    have hb : ¬ b > majorVersion := by simpa [majorVersion] using h1
    constructor <;> intro h2 <;> simp [h0, h2, hb]
  · intro g v hv
    match g with
    | [] => simp [Version, index, error_bind] at hv
    | [a] =>
      simp only [Version, index, List.getElem?_cons_zero, List.getElem?_cons_succ,
        List.getElem?_nil, ok_bind, error_bind, pure_eq_ok] at hv
      split_ifs at hv
      simp at hv
    | [a, b] =>
      simp only [Version, index, List.getElem?_cons_zero, List.getElem?_cons_succ,
        List.getElem?_nil, ok_bind, error_bind, pure_eq_ok] at hv
      split_ifs at hv <;> simp at hv
    | a :: b :: c :: rest =>
      rw [Version_cons3] at hv
      split_ifs at hv <;> simp at hv <;> (subst hv; simp)

/-- Witness of C1: scenario S1 meets the hypotheses (60 bytes, byte 0 `'$'`,
byte 1 `'2'`, byte 2 `'a'`) and `Version` returns its bytes 1 and 2. -/
theorem Version_ok_witness :
    Version scenarioS1 = .ok ([byte '2', byte 'a'], none) :=
  (Version_ok.1 scenarioS1 (by decide) (by decide) (by decide)).1 (by decide)

/-- C2: for every byte sequence `h` of at least 3 bytes, `Version h` fails with
`ErrInvalidHash` if and only if byte 0 is not `'$'`, and fails with
`ErrInvalidVersion` if and only if byte 0 is `'$'` and byte 1 is strictly greater
than `'2'` (in both cases with the `nil` slice); so byte 1 `'3'` after `'$'`
yields `ErrInvalidVersion`, and `"not-a-hash"`, whose byte 1 `'o'` is greater
than `'2'`, yields `ErrInvalidHash`, the byte-0 check coming first. -/
theorem Version_errors :
    (∀ (h : List Byte) (hlen : 3 ≤ h.length),
      ((∃ v, Version h = .ok (v, some .ErrInvalidHash)) ↔ h[0] ≠ byte '$') ∧
      ((∃ v, Version h = .ok (v, some .ErrInvalidVersion)) ↔
        (h[0] = byte '$' ∧ h[1] > byte '2')) ∧
      (h[0] ≠ byte '$' → Version h = .ok ([], some .ErrInvalidHash)) ∧
      (h[0] = byte '$' → h[1] > byte '2' → Version h = .ok ([], some .ErrInvalidVersion)) ∧
      (h[0] = byte '$' → h[1] = byte '3' → Version h = .ok ([], some .ErrInvalidVersion))) ∧
    ((bytes "not-a-hash")[1]? = some (byte 'o') ∧ byte 'o' > byte '2' ∧
      Version (bytes "not-a-hash") = .ok ([], some .ErrInvalidHash)) := by
  refine ⟨?_, by decide⟩
  intro h hlen
  obtain ⟨a, b, c, rest, rfl⟩ := exists_cons3 h hlen
  simp only [List.getElem_cons_zero, List.getElem_cons_succ]
  rw [Version_cons3]
  have h3 : byte '3' > byte '2' := by decide
  by_cases ha : a = byte '$'
  · by_cases hb : b > byte '2'
    · have hb2 : b > majorVersion := hb
      simp [ha, hb, hb2]
    · have hb2 : ¬ b > majorVersion := hb
      have hb3 : b ≠ byte '3' := fun e => hb (e ▸ h3)
      by_cases hc : c = byte '$' <;> simp [ha, hb, hb2, hb3, hc]
  · simp [ha]

/-- Witness of C2: the 3-byte input `"$3a"` has byte 0 `'$'` and byte 1 `'3'`,
and `Version` fails on it with `ErrInvalidVersion`. -/
theorem Version_errors_witness :
    Version (bytes "$3a") = .ok ([], some .ErrInvalidVersion) :=
  (Version_errors.1 (bytes "$3a") (by decide)).2.2.2.2 (by decide) (by decide)

/-- C3: for every byte sequence `b`, `Cost b` fails with `ErrHashTooShort` if and
only if `b` has fewer than 59 bytes, and then the value is 0 whatever the bytes
are; no input of 59 bytes or more yields `ErrHashTooShort`; `"not-a-hash"` yields
`ErrHashTooShort`, the length check coming before the `'$'` check. -/
theorem Cost_too_short :
    (∀ b : List Byte,
      ((∃ v, Cost b = .ok (v, some .ErrHashTooShort)) ↔ b.length < 59) ∧
      (Cost b = .ok (0, some .ErrHashTooShort) ↔ b.length < 59)) ∧
    Cost (bytes "not-a-hash") = .ok (0, some .ErrHashTooShort) := by
  refine ⟨?_, by decide⟩
  intro b
  have key : ∀ v, Cost b = .ok (v, some .ErrHashTooShort) → b.length < 59 := by
    intro v hv
    by_contra hlen
    rw [Cost_eq b (by omega)] at hv
    split_ifs at hv
    · simp at hv
    · rcases costResult_Atoi_two b[4] b[5] with ⟨w, hw, _⟩ | hw <;>
        (rw [hw] at hv; simp [strconv.syntaxError] at hv)
    · rcases costResult_Atoi_two b[5] b[6] with ⟨w, hw, _⟩ | hw <;>
        (rw [hw] at hv; simp [strconv.syntaxError] at hv)
  exact ⟨⟨fun ⟨v, hv⟩ => key v hv, fun hl => ⟨0, Cost_short b hl⟩⟩,
    ⟨key 0, Cost_short b⟩⟩

/-- C4: for every byte sequence `h` of at least 59 bytes with byte 0 `'$'`,
byte 2 not `'$'` and bytes 4 and 5 both ASCII decimal digits, `Cost h` returns
no error and the value `10*(h[4]-'0') + (h[5]-'0')`; scenario S1 gives 10. -/
theorem Cost_two_char :
    (∀ (h : List Byte) (hlen : 59 ≤ h.length), h[0] = byte '$' → h[2] ≠ byte '$' →
      isDigit h[4] → isDigit h[5] →
      Cost h = .ok (10 * ((h[4].val : Int) - ((byte '0').val : Int)) +
        ((h[5].val : Int) - ((byte '0').val : Int)), none)) ∧
    Cost scenarioS1 = .ok (10, none) := by
  refine ⟨?_, by decide⟩
  intro h hlen h0 h2 h4 h5
  have hz : ((byte '0').val : Int) = 48 := rfl
  rw [Cost_eq h hlen, Atoi_two, hz]
  simp [h0, h2, h4, h5, isDigit_ne_minus _ h4, isDigit_ne_plus _ h4, costResult]

/-- Witness of C4: scenario S1 meets the hypotheses (60 bytes, `'$'` at 0,
`'a'` at 2, digits `'1'` and `'0'` at 4 and 5) and its cost is `10*1 + 0`. -/
theorem Cost_two_char_witness :
    Cost scenarioS1 = .ok (10 * ((49 : Int) - 48) + ((48 : Int) - 48), none) :=
  Cost_two_char.1 scenarioS1 (by decide) (by decide) (by decide) (by decide) (by decide)

/-- C5, counterexample: on the 60-byte input `$2a$-5$...` `Cost` returns -5 with
no error, a value outside `[0, 99]`. -/
theorem Cost_range_counterexample :
    Cost negativeCostHash = .ok (-5, none) ∧ ¬ (0 ≤ (-5 : Int) ∧ (-5 : Int) ≤ 99) := by
  decide

/-- C5, amended: for every byte sequence `h` on which `Cost h` returns no error,
the returned cost is an integer in the range `[-9, 99]`, negative only when the
first of the two decoded bytes (byte 4 when byte 2 is not `'$'`, byte 5 when it
is) is `'-'`; both ends of the range are reached. -/
theorem Cost_range :
    (∀ (h : List Byte) (v : Int), Cost h = .ok (v, none) →
      -9 ≤ v ∧ v ≤ 99 ∧
      (v < 0 → (h[2]? ≠ some (byte '$') ∧ h[4]? = some (byte '-')) ∨
        (h[2]? = some (byte '$') ∧ h[5]? = some (byte '-')))) ∧
    Cost lowestCostHash = .ok (-9, none) ∧ Cost highestCostHash = .ok (99, none) := by
  refine ⟨fun h v hv => ?_, by decide, by decide⟩
  obtain ⟨_, _, _, h1, h2, h3⟩ := Cost_success h v hv
  exact ⟨h1, h2, h3⟩

/-- Witness of C5 amended: the input of the counterexample has cost -5, which lies
in `[-9, 99]`, and its byte 4, the first decoded byte, is `'-'`. -/
theorem Cost_range_witness :
    Cost negativeCostHash = .ok (-5, none) ∧ -9 ≤ (-5 : Int) ∧ (-5 : Int) ≤ 99 ∧
      negativeCostHash[4]? = some (byte '-') :=
  have hc : Cost negativeCostHash = .ok (-5, none) := by decide
  have h := Cost_range.1 negativeCostHash (-5) hc
  ⟨hc, h.1, h.2.1, (h.2.2 (by decide)).elim (fun a => a.2) (fun b => absurd b.1 (by decide))⟩

/-- C6, counterexample: `Cost` returns 10 with no error on a 60-byte input whose
bytes 3 and 6 are `'X'` and whose byte 2 is `'a'`, which has the framing of
neither shape. -/
theorem Cost_framing_counterexample :
    Cost unframedHash = .ok (10, none) ∧
    ¬ (unframedHash[0]? = some (byte '$') ∧
      ((unframedHash[2]? = some (byte '$') ∧ unframedHash[5]? = some (byte '$')) ∨
       (unframedHash[3]? = some (byte '$') ∧ unframedHash[6]? = some (byte '$')))) := by
  decide

/-- C6, amended: of the framing, `Cost` validates only the leading `'$'`: for
every byte sequence `h` on which `Cost h` returns no error, `h` has at least 59
bytes, byte 0 is `'$'` and byte 5, one of the decoded cost bytes, is not `'$'`
(so no input of the single-char shape is accepted); byte 3 is not read at all,
replacing it never changes what `Cost` returns. -/
theorem Cost_framing :
    (∀ (h : List Byte) (v : Int), Cost h = .ok (v, none) →
      59 ≤ h.length ∧ h[0]? = some (byte '$') ∧ h[5]? ≠ some (byte '$')) ∧
    (∀ (h : List Byte) (x : Byte), Cost (h.set 3 x) = Cost h) := by
  refine ⟨fun h v hv => ?_, Cost_set3⟩
  obtain ⟨h1, h2, h3, _⟩ := Cost_success h v hv
  exact ⟨h1, h2, h3⟩

/-- Witness of C6 amended: the input of the counterexample is accepted with cost
10; it has 60 bytes, byte 0 `'$'` and byte 5 `'0'`. -/
theorem Cost_framing_witness :
    Cost unframedHash = .ok (10, none) ∧
      (59 ≤ unframedHash.length ∧ unframedHash[0]? = some (byte '$') ∧
        unframedHash[5]? ≠ some (byte '$')) :=
  have hc : Cost unframedHash = .ok (10, none) := by decide
  ⟨hc, Cost_framing.1 unframedHash 10 hc⟩

/-- C7, counterexample: the input of scenario S2 has 57 bytes, not 59, and `Cost`
returns 0 and `ErrHashTooShort` on it. -/
theorem Cost_scenarioS2_counterexample :
    scenarioS2.length = 57 ∧ ¬ (59 ≤ scenarioS2.length) ∧
    Cost scenarioS2 = .ok (0, some .ErrHashTooShort) := by
  decide

/-- C7, amended: the input of scenario S2 has 57 bytes, so `Cost` returns 0 and
`ErrHashTooShort` on it; followed by any two bytes or more (59 bytes at least),
`Cost` takes the single-char branch, reads the bytes `[5..7)`, which are `"$a"`,
fails the decimal decode and returns -1 with the syntax error of `Atoi`, which
is neither `ErrHashTooShort` nor `ErrInvalidHash`. -/
theorem Cost_scenarioS2 :
    scenarioS2.length = 57 ∧ Cost scenarioS2 = .ok (0, some .ErrHashTooShort) ∧
    (∀ t : List Byte, 2 ≤ t.length →
      (scenarioS2 ++ t)[2]? = some (byte '$') ∧
      ((scenarioS2 ++ t).drop 5).take 2 = bytes "$a" ∧
      Cost (scenarioS2 ++ t) =
        .ok (-1, some (.NumError "Atoi" (bytes "$a") .StrconvErrSyntax))) := by
  refine ⟨by decide, by decide, fun t ht => ?_⟩
  have e : scenarioS2 ++ t =
      byte '$' :: byte '2' :: byte '$' :: byte '1' :: byte '2' :: byte '$' :: byte 'a' ::
        (bytes "bcdefghijklmnopqrstuvwxyzABCDEFGHIJKLMNOPQRSTUVWXY" ++ t) := rfl
  have hl : 59 ≤ (scenarioS2 ++ t).length := by
    have : scenarioS2.length = 57 := by decide
    rw [List.length_append]; omega
  refine ⟨by rw [e]; rfl, by rw [e]; rfl, ?_⟩
  rw [e] at hl ⊢
  rw [Cost_eq _ hl]
  have ha : costResult (strconv.Atoi [byte '$', byte 'a']) =
      .ok (-1, some (.NumError "Atoi" (bytes "$a") .StrconvErrSyntax)) := by decide
  simpa using ha

/-- Witness of C7 amended: scenario S2 followed by `"Z0"` has 59 bytes and
`Cost` returns -1 and the syntax error on it. -/
theorem Cost_scenarioS2_witness :
    Cost (scenarioS2 ++ bytes "Z0") =
      .ok (-1, some (.NumError "Atoi" (bytes "$a") .StrconvErrSyntax)) :=
  (Cost_scenarioS2.2.2 (bytes "Z0") (by decide)).2.2

/-- C8: for every byte sequence `h` of at least 59 bytes of the single-char
shape, `'$'` at bytes 0, 2 and 5 and decimal digits at bytes 3 and 4, `Cost h`
decodes the bytes `[5..7)`, which start with `'$'`, and returns -1 with the
syntax error of `Atoi` on these two bytes: it returns no cost without error,
and so not the encoded cost `10*(h[3]-'0') + (h[4]-'0')`. -/
theorem Cost_single_char (h : List Byte) (hlen : 59 ≤ h.length)
    (h0 : h[0] = byte '$') (h2 : h[2] = byte '$') (_h3 : isDigit h[3]) (_h4 : isDigit h[4])
    (h5 : h[5] = byte '$') :
    Cost h = .ok (-1, some (.NumError "Atoi" [byte '$', h[6]] .StrconvErrSyntax)) ∧
    (∀ v, Cost h ≠ .ok (v, none)) ∧
    Cost h ≠ .ok (10 * ((h[3].val : Int) - ((byte '0').val : Int)) +
      ((h[4].val : Int) - ((byte '0').val : Int)), none) := by
  have hd : ¬ isDigit (byte '$') := by decide
  have hm : byte '$' ≠ byte '-' := by decide
  have hp : byte '$' ≠ byte '+' := by decide
  have hc : Cost h =
      .ok (-1, some (.NumError "Atoi" [byte '$', h[6]] .StrconvErrSyntax)) := by
    rw [Cost_eq h hlen]
    simp only [h0, h2, h5, ne_eq, not_true_eq_false, if_false]
    rw [Atoi_two]
    simp [hd, hm, hp, costResult, strconv.syntaxError, strconv.fnAtoi]
  refine ⟨hc, fun v hv => ?_, fun hv => ?_⟩ <;>
    (rw [hc] at hv; simp at hv)

/-- Witness of C8: the 59-byte hash `$2$12$` with 53 salt and digest bytes is of
the single-char shape, and `Cost` returns -1 and the syntax error on `"$a"`. -/
theorem Cost_single_char_witness :
    Cost singleCharHash =
      .ok (-1, some (.NumError "Atoi" [byte '$', byte 'a'] .StrconvErrSyntax)) :=
  (Cost_single_char singleCharHash (by decide) (by decide) (by decide) (by decide)
    (by decide) (by decide)).1

/-- C9: whatever the external primitive is, `HashPassword ""` returns the empty
string and the error `password is empty`; for every password `p`, empty or not,
`IsCorrectPassword "" p` returns false and the error `hashedPassword is empty`;
and for every non-empty stored hash `s`, `IsCorrectPassword s ""` returns false
and the error `password is empty`. -/
theorem empty_arguments (lib : BcryptPackage) :
    HashPassword lib [] = ([], some (.New "password is empty")) ∧
    (∀ p : List Byte,
      IsCorrectPassword lib [] p = (false, some (.New "hashedPassword is empty"))) ∧
    (∀ s : List Byte, s ≠ [] →
      IsCorrectPassword lib s [] = (false, some (.New "password is empty"))) := by
  refine ⟨by simp [HashPassword], fun p => by simp [IsCorrectPassword], fun s hs => ?_⟩
  simp [IsCorrectPassword, hs]

/-- Witness of C9: with the concrete primitive and the stored hash of scenario
S1, the empty password is rejected. -/
theorem empty_arguments_witness :
    IsCorrectPassword toyBcrypt scenarioS1 [] = (false, some (.New "password is empty")) :=
  (empty_arguments toyBcrypt).2.2 scenarioS1 (by decide)

/-- C10: if the external `generate` never returns an empty hash without error
and `compare` accepts every hash that `generate` returned for the same
password, then for every non-empty password `p` for which `HashPassword p`
returns a hash `h` and no error, `IsCorrectPassword h p` returns true and no
error. -/
theorem verify_hash (lib : BcryptPackage)
    (hne : ∀ p c m, lib.GenerateFromPassword p c = (m, none) → m ≠ [])
    (hcmp : ∀ p c m, lib.GenerateFromPassword p c = (m, none) →
      lib.CompareHashAndPassword m p = none)
    (p h : List Byte) (hp : p ≠ []) (hh : HashPassword lib p = (h, none)) :
    IsCorrectPassword lib h p = (true, none) := by
  unfold HashPassword at hh
  rw [if_neg hp] at hh
  rcases hg : lib.GenerateFromPassword p bcrypt.DefaultCost with ⟨m, err⟩
  rw [hg] at hh
  cases err with
  | some e => simp at hh
  | none =>
    simp only [ne_eq, not_true_eq_false, if_false, Prod.mk.injEq, and_true] at hh
    subst hh
    have h1 := hne p _ m hg
    have h2 := hcmp p _ m hg
    simp [IsCorrectPassword, h1, hp, h2]

/-- Witness of C10: the concrete primitive meets both hypotheses, and the hash
it makes of `correct horse battery staple` verifies against that password. -/
theorem verify_hash_witness :
    IsCorrectPassword toyBcrypt
      (bytes "$2a$10$correct horse battery staple.........................")
      (bytes "correct horse battery staple") = (true, none) :=
  verify_hash toyBcrypt
    (fun p c m hm => by
      simp only [toyBcrypt, Prod.mk.injEq, and_true] at hm
      subst hm
      exact List.cons_ne_nil _ _)
    (fun p c m hm => by
      simp only [toyBcrypt, Prod.mk.injEq, and_true] at hm
      subst hm
      exact if_pos rfl)
    (bytes "correct horse battery staple") _ (by decide) (by decide)

/-- C11: for every non-empty password `p`, `HashPassword p` uses the external
package only through `generate(p, 10)`, 10 being the default cost, which lies in
`[MinCost, MaxCost] = [4, 31]`, and wraps its result transparently: when
`generate` fails with the error `e`, `HashPassword` returns the empty string and
`e` unchanged; when it succeeds with the bytes `m`, `HashPassword` returns
exactly `m` and no error. -/
theorem HashPassword_wrapper (lib : BcryptPackage) (p : List Byte) (hp : p ≠ []) :
    (bcrypt.DefaultCost = 10 ∧ DefaultCost = 10 ∧ MinCost = 4 ∧ MaxCost = 31 ∧
      MinCost ≤ DefaultCost ∧ DefaultCost ≤ MaxCost) ∧
    (∀ m e, lib.GenerateFromPassword p 10 = (m, some e) →
      HashPassword lib p = ([], some e)) ∧
    (∀ m, lib.GenerateFromPassword p 10 = (m, none) → HashPassword lib p = (m, none)) ∧
    (∀ other : BcryptPackage,
      other.GenerateFromPassword p 10 = lib.GenerateFromPassword p 10 →
      HashPassword other p = HashPassword lib p) := by
  refine ⟨by decide, fun m e hg => ?_, fun m hg => ?_, fun other ho => ?_⟩
  · simp [HashPassword, hp, bcrypt.DefaultCost, hg]
  · simp [HashPassword, hp, bcrypt.DefaultCost, hg]
  · simp [HashPassword, hp, bcrypt.DefaultCost, ho]

/-- Witness of C11: the concrete primitive hashes the non-empty password `pw`
to `$2a$10$pw` and 51 bytes of padding, and `HashPassword` returns these bytes. -/
theorem HashPassword_wrapper_witness :
    HashPassword toyBcrypt (bytes "pw") =
      (bytes "$2a$10$pw...................................................", none) :=
  (HashPassword_wrapper toyBcrypt (bytes "pw") (by decide)).2.2.1 _ (by decide)

/-- C12: for every non-empty stored hash `s` and non-empty password `p`,
`IsCorrectPassword s p` returns true and no error if and only if the external
comparator reports success on `s` and `p`; when the comparator returns the error
`e`, it returns false and `e` unchanged; the boolean is true exactly when the
returned error is `nil`. -/
theorem IsCorrectPassword_compare (lib : BcryptPackage) (s p : List Byte)
    (hs : s ≠ []) (hp : p ≠ []) :
    (IsCorrectPassword lib s p = (true, none) ↔ lib.CompareHashAndPassword s p = none) ∧
    (∀ e, lib.CompareHashAndPassword s p = some e →
      IsCorrectPassword lib s p = (false, some e)) ∧
    ((IsCorrectPassword lib s p).1 = true ↔ (IsCorrectPassword lib s p).2 = none) := by
  cases hc : lib.CompareHashAndPassword s p with
  | none => simp [IsCorrectPassword, hs, hp, hc]
  | some e => simp [IsCorrectPassword, hs, hp, hc]

/-- Witness of C12: with the concrete primitive, a stored hash that is not the
hash of the password is rejected with the error of the comparator. -/
theorem IsCorrectPassword_compare_witness :
    IsCorrectPassword toyBcrypt scenarioS1 (bytes "pw") =
      (false, some .ErrMismatchedHashAndPassword) :=
  (IsCorrectPassword_compare toyBcrypt scenarioS1 (bytes "pw") (by decide) (by decide)).2.1
    _ (by decide)

/-- C13: if every hash the external `generate` returns at cost 10 is a 60-byte
string `$2`, a minor letter, `$10$` and 53 salt and digest bytes, then for
every non-empty password `p` for which `HashPassword p` returns `h` and no
error, `Cost h` returns 10 and no error. -/
theorem Cost_of_HashPassword (lib : BcryptPackage)
    (hgen : ∀ p m, lib.GenerateFromPassword p 10 = (m, none) →
      m.length = 60 ∧ ∃ minor rest, byte 'a' ≤ minor ∧ minor ≤ byte 'z' ∧ rest.length = 53 ∧
        m = bytes "$2" ++ [minor] ++ bytes "$10$" ++ rest)
    (p h : List Byte) (hp : p ≠ []) (hh : HashPassword lib p = (h, none)) :
    Cost h = .ok (10, none) := by
  unfold HashPassword at hh
  rw [if_neg hp] at hh
  rcases hg : lib.GenerateFromPassword p bcrypt.DefaultCost with ⟨m, err⟩
  rw [hg] at hh
  cases err with
  | some e => simp at hh
  | none =>
    simp only [ne_eq, not_true_eq_false, if_false, Prod.mk.injEq, and_true] at hh
    subst hh
    obtain ⟨hlen, minor, rest, ha, _, _, hm⟩ := hgen p m hg
    have hm2 : m = byte '$' :: byte '2' :: minor :: byte '$' :: byte '1' :: byte '0' ::
        byte '$' :: rest := hm
    have hne : minor ≠ byte '$' := by
      intro e
      have h1 : (byte 'a').val = 97 := rfl
      have h2 : (byte '$').val = 36 := rfl
      rw [e, Fin.le_def, h1, h2] at ha
      omega
    have h10 : costResult (strconv.Atoi [byte '1', byte '0']) = .ok (10, none) := by decide
    rw [Cost_eq m (by omega)]
    subst hm2
    simpa [hne] using h10

/-- Witness of C13: the concrete primitive returns `$2a$10$` and 53 bytes, and
the cost of the hash it makes of `pw` is 10. -/
theorem Cost_of_HashPassword_witness :
    Cost (bytes "$2a$10$pw...................................................") =
      .ok (10, none) :=
  Cost_of_HashPassword toyBcrypt
    (fun p m hm => by
      simp only [toyBcrypt, Prod.mk.injEq, and_true] at hm
      subst hm
      have hl : (List.take 53 (p ++ List.replicate 53 (byte '.'))).length = 53 := by
        rw [List.length_take, List.length_append, List.length_replicate]; omega
      refine ⟨?_, byte 'a', _, by decide, by decide, hl, rfl⟩
      have h7 : (bytes "$2a$10$").length = 7 := by decide
      rw [List.length_append, hl, h7])
    (bytes "pw") _ (by decide) (by decide)

/-- C14: if every hash the external `generate` returns starts with `$2` followed
by `'$'`, or by a minor-version byte and `'$'`, then for every non-empty
password `p` for which `HashPassword p` returns `h` and no error, `Version h`
returns no error and a slice of length 1 or 2 whose first byte is `'2'`. -/
theorem Version_of_HashPassword (lib : BcryptPackage)
    (hgen : ∀ p m, lib.GenerateFromPassword p 10 = (m, none) →
      3 ≤ m.length ∧ ((∃ rest, m = bytes "$2$" ++ rest) ∨
        (∃ minor rest, m = bytes "$2" ++ [minor] ++ bytes "$" ++ rest)))
    (p h : List Byte) (hp : p ≠ []) (hh : HashPassword lib p = (h, none)) :
    ∃ v, Version h = .ok (v, none) ∧ (v.length = 1 ∨ v.length = 2) ∧
      v.head? = some (byte '2') := by
  unfold HashPassword at hh
  rw [if_neg hp] at hh
  rcases hg : lib.GenerateFromPassword p bcrypt.DefaultCost with ⟨m, err⟩
  rw [hg] at hh
  cases err with
  | some e => simp at hh
  | none =>
    simp only [ne_eq, not_true_eq_false, if_false, Prod.mk.injEq, and_true] at hh
    subst hh
    have hmaj : ¬ byte '2' > majorVersion := by decide
    obtain ⟨_, ⟨rest, hm⟩ | ⟨minor, rest, hm⟩⟩ := hgen p m hg
    · have hm2 : m = byte '$' :: byte '2' :: byte '$' :: rest := hm
      subst hm2
      rw [Version_cons3]
      exact ⟨[byte '2'], by simp [hmaj], by simp, rfl⟩
    · have hm2 : m = byte '$' :: byte '2' :: minor :: byte '$' :: rest := hm
      subst hm2
      rw [Version_cons3]
      by_cases hc : minor = byte '$'
      · exact ⟨[byte '2'], by simp [hmaj, hc], by simp, rfl⟩
      · exact ⟨[byte '2', minor], by simp [hmaj, hc], by simp, rfl⟩

/-- Witness of C14: the concrete primitive returns `$2a$` and more, and the
version of the hash it makes of `pw` is a slice of length 1 or 2 that starts
with `'2'`. -/
theorem Version_of_HashPassword_witness :
    ∃ v, Version (bytes "$2a$10$pw...................................................") =
        .ok (v, none) ∧ (v.length = 1 ∨ v.length = 2) ∧ v.head? = some (byte '2') :=
  Version_of_HashPassword toyBcrypt
    (fun p m hm => by
      simp only [toyBcrypt, Prod.mk.injEq, and_true] at hm
      subst hm
      have h7 : (bytes "$2a$10$").length = 7 := by decide
      refine ⟨by rw [List.length_append, h7]; omega, Or.inr ⟨byte 'a', _, rfl⟩⟩)
    (bytes "pw") _ (by decide) (by decide)

/-- C15, counterexample: on the one-byte input `"n"`, shorter than 3 bytes,
`Version` triggers no out-of-bounds access: it returns `ErrInvalidHash`. -/
theorem Version_short_counterexample :
    (bytes "n").length < 3 ∧ Version (bytes "n") = .ok ([], some .ErrInvalidHash) := by
  decide

/-- C15, amended: `Version` does not check the length of its input. On a byte
sequence shorter than 3 bytes it never returns a version: it returns
`ErrInvalidHash` when there is a byte 0 and it is not `'$'`, `ErrInvalidVersion`
when byte 0 is `'$'` and there is a byte 1 greater than `'2'`, and it triggers
an out-of-bounds index access, at the index equal to the length, exactly on the
other inputs: the empty sequence, `"$"`, and `'$'` followed by one byte not
greater than `'2'`. -/
theorem Version_short (h : List Byte) (hlen : h.length < 3) :
    (∀ v, Version h ≠ .ok (v, none)) ∧
    (∀ a, h[0]? = some a → a ≠ byte '$' → Version h = .ok ([], some .ErrInvalidHash)) ∧
    (∀ b, h[0]? = some (byte '$') → h[1]? = some b → b > byte '2' →
      Version h = .ok ([], some .ErrInvalidVersion)) ∧
    ((h = [] ∨ h = [byte '$'] ∨ ∃ b, b ≤ byte '2' ∧ h = [byte '$', b]) →
      Version h = .error (.indexOutOfRange h.length h.length)) ∧
    ((∃ e, Version h = .error e) ↔
      (h = [] ∨ h = [byte '$'] ∨ ∃ b, b ≤ byte '2' ∧ h = [byte '$', b])) := by
  match h, hlen with
  | [], _ => simp [Version_nil]
  | [a], _ =>
    rw [Version_one]
    by_cases ha : a = byte '$' <;> simp [ha]
  | [a, b], _ =>
    rw [Version_two]
    by_cases ha : a = byte '$'
    · by_cases hb : b > byte '2'
      · have hb2 : b > majorVersion := hb
        have hb3 : ¬ b ≤ byte '2' := not_le.mpr hb
        simp [ha, hb, hb2, hb3]
      · have hb2 : ¬ b > majorVersion := hb
        have hb3 : b ≤ byte '2' := not_lt.mp hb
        simp [ha, hb2, hb3]
    · simp [ha]

/-- Witness of C15 amended: the two-byte input `"$2"` makes `Version` read at
index 2, out of bounds. -/
theorem Version_short_witness :
    Version (bytes "$2") = .error (.indexOutOfRange 2 2) :=
  (Version_short (bytes "$2") (by decide)).2.2.2.1
    (Or.inr (Or.inr ⟨byte '2', by decide, rfl⟩))

/-- C16: for every byte sequence `b` of at least 59 bytes, when byte 0 is not
`'$'`, `Cost b` returns 0 and `ErrInvalidHash`, having read byte 0 only, no cost
byte; when byte 0 is `'$'` and `strconv.Atoi` rejects the two selected cost
bytes (`[4..6)` when byte 2 is not `'$'`, `[5..7)` when it is), `Cost b` returns
-1 and the error of `Atoi`, a syntax error on these two bytes, which is neither
`ErrHashTooShort` nor `ErrInvalidHash`. -/
theorem Cost_errors (b : List Byte) (hlen : 59 ≤ b.length) :
    (b[0] ≠ byte '$' → Cost b = .ok (0, some .ErrInvalidHash) ∧ CostReads b = [0]) ∧
    (b[0] = byte '$' →
      ∀ e, (strconv.Atoi (if b[2] ≠ byte '$' then [b[4], b[5]] else [b[5], b[6]])).2 = some e →
        Cost b = .ok (-1, some e) ∧
        e = .NumError "Atoi" (if b[2] ≠ byte '$' then [b[4], b[5]] else [b[5], b[6]])
          .StrconvErrSyntax ∧
        e ≠ .ErrHashTooShort ∧ e ≠ .ErrInvalidHash) := by
  refine ⟨fun h0 => ?_, fun h0 e he => ?_⟩
  · rw [Cost_eq b hlen, CostReads_eq b hlen]
    simp [h0]
  · have key : ∀ x y : Byte, (strconv.Atoi [x, y]).2 = some e →
        costResult (strconv.Atoi [x, y]) = .ok (-1, some e) ∧
        e = .NumError "Atoi" [x, y] .StrconvErrSyntax := by
      intro x y hxy
      rcases costResult_Atoi_two x y with ⟨w, hw, _⟩ | hw
      · simp [costResult, hxy] at hw
      · have h2 := hw
        simp only [costResult, hxy, ne_eq, reduceCtorEq, not_false_eq_true, if_true,
          Except.ok.injEq, Prod.mk.injEq, true_and, Option.some.injEq] at h2
        exact ⟨by simp [costResult, hxy], h2⟩
    rw [Cost_eq b hlen]
    by_cases h2 : b[2] = byte '$'
    · simp only [h2, ne_eq, not_true_eq_false, if_false] at he ⊢
      obtain ⟨k1, k2⟩ := key _ _ he
      simp only [h0, not_true_eq_false, if_false, k1, true_and]
      exact ⟨k2, by rw [k2]; simp, by rw [k2]; simp⟩
    · simp only [h2, ne_eq, not_false_eq_true, if_true] at he ⊢
      obtain ⟨k1, k2⟩ := key _ _ he
      simp only [h0, not_true_eq_false, if_false, k1, true_and]
      exact ⟨k2, by rw [k2]; simp, by rw [k2]; simp⟩

/-- Witness of C16: a 60-byte input that starts with `'X'` yields 0 and
`ErrInvalidHash`, byte 0 alone being read; the 59-byte single-char hash, whose
selected cost bytes are `"$a"`, yields -1 and the syntax error of `Atoi`. -/
theorem Cost_errors_witness :
    (Cost noDollarHash = .ok (0, some .ErrInvalidHash) ∧ CostReads noDollarHash = [0]) ∧
    Cost singleCharHash =
      .ok (-1, some (.NumError "Atoi" (bytes "$a") .StrconvErrSyntax)) :=
  ⟨(Cost_errors noDollarHash (by decide)).1 (by decide),
    ((Cost_errors singleCharHash (by decide)).2 (by decide)
      (.NumError "Atoi" (bytes "$a") .StrconvErrSyntax) (by decide)).1⟩

/-- C17: `Cost` never indexes out of bounds. For every byte sequence `b`
whatsoever, `Cost b` returns a pair of a value and an error, not a panic;
every index it reads is 0, 2 or one of 4 to 6, is below 59 and within the length
of `b`, and is read only when the length check `len(b) >= 59` has passed, an
input shorter than 59 bytes being read nowhere; and the result depends on the
length of `b` and on the bytes at the indices read only. -/
theorem Cost_total (b : List Byte) :
    (∃ v e, Cost b = .ok (v, e)) ∧
    (∀ i ∈ CostReads b,
      59 ≤ b.length ∧ i < 59 ∧ i < b.length ∧ (i = 0 ∨ i = 2 ∨ (4 ≤ i ∧ i ≤ 6))) ∧
    (b.length < 59 → CostReads b = []) ∧
    (∀ d : List Byte, b.length = d.length → (∀ i ∈ CostReads b, b[i]? = d[i]?) →
      Cost b = Cost d) := by
  refine ⟨?_, fun i hi => ?_, CostReads_short b, Cost_frame b⟩
  · by_cases hs : b.length < 59
    · exact ⟨0, some .ErrHashTooShort, Cost_short b hs⟩
    · rw [Cost_eq b (by omega)]
      split_ifs
      · exact ⟨_, _, rfl⟩
      · exact costResult_ok _
      · exact costResult_ok _
  · obtain ⟨hl, hc⟩ := CostReads_mem b i hi
    omega

/-- Witness of C17: on the ten-byte input `"not-a-hash"` `Cost` reads nothing. -/
theorem Cost_total_witness :
    (bytes "not-a-hash").length < 59 ∧ CostReads (bytes "not-a-hash") = [] :=
  ⟨by decide, (Cost_total (bytes "not-a-hash")).2.2.1 (by decide)⟩

/-- C18: `Cost` does not validate the version. For every two byte sequences of
equal length that differ at byte 1 only, `Cost` returns the same value and the
same error; and on the 60-byte input `$3a$10$...` `Version` fails with
`ErrInvalidVersion` while `Cost` returns 10 and no error. -/
theorem Cost_ignores_version :
    (∀ b d : List Byte, b.length = d.length → (∀ i, i ≠ 1 → b[i]? = d[i]?) →
      Cost b = Cost d) ∧
    (version3Hash.length = 60 ∧ version3Hash = bytes "$3a$10$" ++ version3Hash.drop 7 ∧
      Version version3Hash = .ok ([], some .ErrInvalidVersion) ∧
      Cost version3Hash = .ok (10, none)) := by
  refine ⟨fun b d hlen hne => Cost_frame b d hlen fun i hi => hne i ?_,
    by decide, by decide, by decide, by decide⟩
  obtain ⟨_, hc⟩ := CostReads_mem b i hi
  omega

/-- Witness of C18: scenario S1 and the same hash with the major version `'3'`
differ at byte 1 only, and `Cost` returns the same on both. -/
theorem Cost_ignores_version_witness :
    Cost scenarioS1 = Cost version3Hash :=
  Cost_ignores_version.1 scenarioS1 version3Hash (by decide) (fun i hi => by
    have e1 : scenarioS1 = byte '$' :: byte '2' :: version3Hash.drop 2 := by decide
    have e2 : version3Hash = byte '$' :: byte '3' :: version3Hash.drop 2 := by decide
    rw [e1]
    conv_rhs => rw [e2]
    match i, hi with
    | 0, _ => rfl
    | (n + 2), _ => rfl)

end Cryptography
